import Mathlib

/-!
Verification of the core subsystem of a Streamlit-based Ollama chat client
(`app.py`): the code-fence formatter `render_markdown_with_code`, the
per-user JSON history store (`load_history` / `save_history`), and the
submit / stream / finalize turn state machine.

Text is modelled at the character level: a Python `str` is a `String`
(a list of `Char`), `text.split('\n')` is `splitLines`, `'\n'.join` is
`joinLines`.  Machine-level concerns (Streamlit rendering, the actual
HTTP streaming transport) are external collaborators; the streamed
chunks are modelled as the list of delta strings the loop extracts.
-/

namespace OllamaApp

/-- One line of text, as the Python code sees it after `text.split('\n')`:
a sequence of characters containing no newline. -/
abbrev Line := List Char

/-- The triple-backtick fence marker tested by `line.startswith('```')`. -/
def fence : Line := "```".data

/-- The characters removed by Python's `str.strip()`:
space, tab, newline, carriage return, vertical tab, form feed. -/
def isPySpace (c : Char) : Bool :=
  c = ' ' || c = '\t' || c = '\n' || c = '\r' || c = Char.ofNat 11 || c = Char.ofNat 12

/-- Python's `str.strip()`: drop leading and trailing whitespace. -/
def pyStrip (l : Line) : Line :=
  ((l.dropWhile isPySpace).reverse.dropWhile isPySpace).reverse

/-- State of the line scan in `render_markdown_with_code`:
`in_code_block`, `code_lines`, `output`. -/
structure FmtState where
  inBlock : Bool
  codeLines : List Line
  output : List Line
deriving DecidableEq

/-- The lines contributed by `'\n'.join(code)` inside the emitted
`f'```{language}\n{code}\n```'`: an empty buffer prints as one empty line. -/
def emitBody (code : List Line) : List Line :=
  if code.isEmpty then [[]] else code

/-- The candidate language tag computed when a fence closes:
`language = code_lines[0].strip() if code_lines and code_lines[0] else ''`. -/
def closeLang (codeLines : List Line) : Line :=
  match codeLines with
  | [] => []
  | l0 :: _ => if l0 = [] then [] else pyStrip l0

/-- The close-of-fence emission of `render_markdown_with_code` (lines 53-60 of
`app.py`): if the candidate language is nonempty and contains no space, the
first buffered line becomes the tag and the remaining lines the body,
otherwise the tag is empty and all buffered lines are the body.  Returned as
the emitted lines of `f'```{language}\n{code}\n```'`. -/
def closeFence (codeLines : List Line) : List Line :=
  if closeLang codeLines ≠ [] ∧ (closeLang codeLines).contains ' ' = false then
    (fence ++ closeLang codeLines) :: emitBody codeLines.tail ++ [fence]
  else
    fence :: emitBody codeLines ++ [fence]

/-- One iteration of the `for line in text.split('\n')` loop of
`render_markdown_with_code` (lines 50-72 of `app.py`). -/
def fmtStep (s : FmtState) (line : Line) : FmtState :=
  if fence.isPrefixOf line then
    if s.inBlock then
      { inBlock := false, codeLines := [], output := s.output ++ closeFence s.codeLines }
    else
      let language := pyStrip (line.drop 3)
      { inBlock := true,
        codeLines := s.codeLines ++ (if language = [] then [] else [language]),
        output := s.output }
  else if s.inBlock then
    { s with codeLines := s.codeLines ++ [line] }
  else
    { s with output := s.output ++ [line] }

/-- Initial scan state: `in_code_block = False`, `code_lines = []`, `output = []`. -/
def initState : FmtState := { inBlock := false, codeLines := [], output := [] }

/-- The whole line scan of `render_markdown_with_code`: fold the loop body
over the lines and return the accumulated `output` (a still-open fence's
buffered lines are discarded). -/
def formatLines (ls : List Line) : List Line :=
  (ls.foldl fmtStep initState).output

/-- Python's `text.split('\n')`. -/
def splitLines : List Char → List Line
  | [] => [[]]
  | c :: cs =>
    if c = '\n' then [] :: splitLines cs
    else
      match splitLines cs with
      | [] => [[c]]
      | l :: ls => (c :: l) :: ls

/-- Python's `'\n'.join(lines)`. -/
def joinLines : List Line → List Char
  | [] => []
  | [l] => l
  | l :: ls => l ++ '\n' :: joinLines ls

/-- `render_markdown_with_code` (lines 44-74 of `app.py`): split into lines,
run the fence-rewriting scan, join with newlines. -/
def render_markdown_with_code (text : String) : String :=
  String.mk (joinLines (formatLines (splitLines text.data)))

/-! ### Basic facts about the fence marker and the scan -/

lemma fence_chars : fence = [Char.ofNat 96, Char.ofNat 96, Char.ofNat 96] := by decide

lemma fence_isPrefixOf_append (l : Line) : fence.isPrefixOf (fence ++ l) = true := by
  rw [List.isPrefixOf_iff_prefix]; exact List.prefix_append _ _

lemma fence_isPrefixOf_self : fence.isPrefixOf fence = true := by decide

lemma fence_append_drop (l : Line) : (fence ++ l).drop 3 = l := by
  rw [fence_chars]; rfl

lemma fence_drop_self : fence.drop 3 = [] := by decide

lemma fence_not_isPrefixOf_nil : fence.isPrefixOf ([] : Line) = false := by decide

/-- The `output` component of the scan only ever grows by appending: running
from any state equals running from the same state with empty `output` and
prepending the old `output`. -/
lemma fmtStep_factor (b : Bool) (c out : List Line) (l : Line) :
    fmtStep ⟨b, c, out⟩ l =
      ⟨(fmtStep ⟨b, c, []⟩ l).inBlock, (fmtStep ⟨b, c, []⟩ l).codeLines,
        out ++ (fmtStep ⟨b, c, []⟩ l).output⟩ := by
  unfold fmtStep
  by_cases hp : fence.isPrefixOf l = true <;> cases b <;> simp [hp]

lemma foldl_factor (ls : List Line) : ∀ (s : FmtState),
    List.foldl fmtStep s ls =
      ⟨(List.foldl fmtStep ⟨s.inBlock, s.codeLines, []⟩ ls).inBlock,
       (List.foldl fmtStep ⟨s.inBlock, s.codeLines, []⟩ ls).codeLines,
       s.output ++ (List.foldl fmtStep ⟨s.inBlock, s.codeLines, []⟩ ls).output⟩ := by
  induction ls with
  | nil => intro s; simp
  | cons l ls ih =>
    intro s
    obtain ⟨b, c, out⟩ := s
    simp only [List.foldl_cons]
    rw [fmtStep_factor b c out l,
      ih ⟨(fmtStep ⟨b, c, []⟩ l).inBlock, (fmtStep ⟨b, c, []⟩ l).codeLines,
        out ++ (fmtStep ⟨b, c, []⟩ l).output⟩,
      ih (fmtStep ⟨b, c, []⟩ l)]
    simp [List.append_assoc]

/-- While inside a fence, every non-marker line is buffered into
`code_lines` and nothing is emitted. -/
lemma run_body (body : List Line) : ∀ (c out : List Line),
    (∀ b ∈ body, fence.isPrefixOf b = false) →
    List.foldl fmtStep ⟨true, c, out⟩ body = ⟨true, c ++ body, out⟩ := by
  induction body with
  | nil => intro c out _; simp
  | cons x xs ih =>
    intro c out h
    have hx : fence.isPrefixOf x = false := h x (by simp)
    have hstep : fmtStep ⟨true, c, out⟩ x = ⟨true, c ++ [x], out⟩ := by
      unfold fmtStep; simp [hx]
    simp only [List.foldl_cons, hstep]
    rw [ih (c ++ [x]) out (fun b hb => h b (by simp [hb]))]
    simp

/-- C5 (general form): if the input ends while a fence is still open, the
opening marker line and all buffered body lines are absent from the output —
the result is exactly the output of the text before the dangling fence. -/
theorem dangling_fence_dropped (pre : List Line) (opening : Line) (body : List Line)
    (hpre : (List.foldl fmtStep initState pre).inBlock = false)
    (hopen : fence.isPrefixOf opening = true)
    (hbody : ∀ b ∈ body, fence.isPrefixOf b = false) :
    formatLines (pre ++ opening :: body) = formatLines pre := by
  unfold formatLines
  rw [List.foldl_append]
  simp only [List.foldl_cons]
  have hstep : fmtStep (List.foldl fmtStep initState pre) opening =
      ⟨true,
        (List.foldl fmtStep initState pre).codeLines ++
          (if pyStrip (opening.drop 3) = [] then [] else [pyStrip (opening.drop 3)]),
        (List.foldl fmtStep initState pre).output⟩ := by
    simp only [fmtStep, hopen, hpre]
    simp
  rw [hstep, run_body body _ _ hbody]

/-! ### `pyStrip` facts -/

lemma dropWhile_head_false {p : Char → Bool} : ∀ (l : Line) (a : Char),
    (l.dropWhile p).head? = some a → p a = false := by
  intro l
  induction l with
  | nil => intro a h; simp at h
  | cons x xs ih =>
    intro a h
    rw [List.dropWhile_cons] at h
    by_cases hx : p x = true
    · exact ih a (by simpa [hx] using h)
    · have hxa : x = a := by simpa [hx] using h
      subst hxa
      exact Bool.eq_false_iff.mpr hx

lemma dropWhile_eq_self_of_head {p : Char → Bool} (l : Line)
    (h : ∀ a, l.head? = some a → p a = false) : l.dropWhile p = l := by
  cases l with
  | nil => rfl
  | cons x xs =>
    rw [List.dropWhile_cons]
    simp [h x rfl]

/-- Left-stripping is idempotent. -/
lemma dropWhile_dropWhile {p : Char → Bool} (l : Line) :
    (l.dropWhile p).dropWhile p = l.dropWhile p :=
  dropWhile_eq_self_of_head _ (fun a ha => dropWhile_head_false l a ha)

/-- Right-stripping a list whose head is already clean keeps the head clean. -/
lemma dropWhile_rstrip_of_clean {p : Char → Bool} (x : Line)
    (h : x.dropWhile p = x) :
    ((x.reverse.dropWhile p).reverse).dropWhile p = (x.reverse.dropWhile p).reverse := by
  apply dropWhile_eq_self_of_head
  intro a ha
  obtain ⟨t, ht⟩ : x.reverse.dropWhile p <:+ x.reverse := List.dropWhile_suffix p
  have hx : x = (x.reverse.dropWhile p).reverse ++ t.reverse := by
    have := congrArg List.reverse ht
    simpa [List.reverse_append] using this.symm
  have hxa : x.head? = some a := by
    rw [hx, List.head?_append, ha]
    rfl
  exact dropWhile_head_false x a (by rwa [h])

lemma pyStrip_clean (l : Line) : (pyStrip l).dropWhile isPySpace = pyStrip l := by
  unfold pyStrip
  exact dropWhile_rstrip_of_clean _ (dropWhile_dropWhile l)

/-- Python's `strip` is idempotent. -/
lemma pyStrip_idem (l : Line) : pyStrip (pyStrip l) = pyStrip l := by
  show (((pyStrip l).dropWhile isPySpace).reverse.dropWhile isPySpace).reverse = pyStrip l
  rw [pyStrip_clean l]
  unfold pyStrip
  rw [List.reverse_reverse, dropWhile_dropWhile]

lemma mem_pyStrip {a : Char} {l : Line} (h : a ∈ pyStrip l) : a ∈ l := by
  unfold pyStrip at h
  rw [List.mem_reverse] at h
  have h2 := (List.dropWhile_sublist (l := (l.dropWhile isPySpace).reverse) isPySpace).mem h
  rw [List.mem_reverse] at h2
  exact (List.dropWhile_sublist isPySpace).mem h2

/-! ### Well-formed fenced text as a sequence of blocks -/

/-- A block of already-well-formed fenced text: either a plain line, or a
fence `` ```lang `` / body / `` ``` ``. -/
inductive Blk where
  | plain (p : Line)
  | fenced (lang : Line) (body : List Line)
deriving DecidableEq

/-- The lines of a block. -/
def blkLines : Blk → List Line
  | .plain p => [p]
  | .fenced lang body => (fence ++ lang) :: body ++ [fence]

/-- Well-formedness of a block: a plain line does not begin with the fence
marker; a fence's stripped language tag does not itself begin with the fence
marker, and no body line begins with the fence marker. -/
def blkOK : Blk → Bool
  | .plain p => !(fence.isPrefixOf p)
  | .fenced lang body =>
      !(fence.isPrefixOf (pyStrip lang)) && body.all (fun b => !(fence.isPrefixOf b))

/-- The lines of a sequence of blocks. -/
def blocksLines (bs : List Blk) : List Line := (bs.map blkLines).flatten

/-- The `code_lines` buffer contributed by the opening marker line:
the stripped tag when nonempty. -/
def openTag (lang : Line) : List Line :=
  if pyStrip lang = [] then [] else [pyStrip lang]

/-- What the scan emits for one well-formed block. -/
def emitB : Blk → List Line
  | .plain p => [p]
  | .fenced lang body => closeFence (openTag lang ++ body)

/-- Processing one well-formed block from a between-blocks state emits
`emitB` and returns to the between-blocks state. -/
lemma run_block (blk : Blk) (hok : blkOK blk = true) (out : List Line) :
    List.foldl fmtStep ⟨false, [], out⟩ (blkLines blk) = ⟨false, [], out ++ emitB blk⟩ := by
  cases blk with
  | plain p =>
    have hp : fence.isPrefixOf p = false := by
      simpa [blkOK] using hok
    simp only [blkLines, emitB, List.foldl_cons, List.foldl_nil]
    simp only [fmtStep, hp]
    simp
  | fenced lang body =>
    have hok2 : fence.isPrefixOf (pyStrip lang) = false ∧
        ∀ b ∈ body, fence.isPrefixOf b = false := by
      simpa [blkOK, List.all_eq_true] using hok
    have hbody := hok2.2
    have hstep : fmtStep ⟨false, [], out⟩ (fence ++ lang) = ⟨true, openTag lang, out⟩ := by
      simp only [fmtStep, fence_isPrefixOf_append, fence_append_drop, openTag]
      simp
    rw [show blkLines (Blk.fenced lang body) = (fence ++ lang) :: (body ++ [fence]) from rfl,
      List.foldl_cons, hstep, List.foldl_append, run_body body _ _ hbody]
    simp only [List.foldl_cons, List.foldl_nil]
    simp only [fmtStep, fence_isPrefixOf_self]
    simp [emitB]

/-- Processing a well-formed sequence of blocks emits the concatenation of the
per-block emissions. -/
lemma run_blocks (bs : List Blk) : ∀ (out : List Line),
    (∀ b ∈ bs, blkOK b = true) →
    List.foldl fmtStep ⟨false, [], out⟩ (blocksLines bs) =
      ⟨false, [], out ++ (bs.map emitB).flatten⟩ := by
  induction bs with
  | nil => intro out _; simp [blocksLines]
  | cons b bs ih =>
    intro out h
    have hb : blkOK b = true := h b (by simp)
    have hlines : blocksLines (b :: bs) = blkLines b ++ blocksLines bs := by
      simp [blocksLines]
    rw [hlines, List.foldl_append, run_block b hb out,
      ih (out ++ emitB b) (fun x hx => h x (by simp [hx]))]
    simp

/-! ### Stability of the scan's own output (towards idempotence) -/

lemma emitBody_idem (code : List Line) : emitBody (emitBody code) = emitBody code := by
  cases code <;> simp [emitBody]

lemma mem_emitBody {x : Line} {code : List Line} (h : x ∈ emitBody code) :
    x = [] ∨ x ∈ code := by
  unfold emitBody at h
  by_cases hc : code.isEmpty
  · simp [hc] at h
    exact Or.inl h
  · simp [hc] at h
    exact Or.inr h

/-- Running the scan over an emitted fence
`` ```tag `` / mid-lines / `` ``` `` from a between-blocks state. -/
lemma run_emitted (tag : Line) (mid out : List Line)
    (hmid : ∀ b ∈ mid, fence.isPrefixOf b = false) :
    List.foldl fmtStep ⟨false, [], out⟩ ((fence ++ tag) :: (mid ++ [fence])) =
      ⟨false, [], out ++ closeFence (openTag tag ++ mid)⟩ := by
  have hstep : fmtStep ⟨false, [], out⟩ (fence ++ tag) = ⟨true, openTag tag, out⟩ := by
    simp only [fmtStep, fence_isPrefixOf_append, fence_append_drop, openTag]
    simp
  rw [List.foldl_cons, hstep, List.foldl_append, run_body mid _ _ hmid]
  simp only [List.foldl_cons, List.foldl_nil]
  simp only [fmtStep, fence_isPrefixOf_self]
  simp

lemma closeFence_emitBody_of_stays (c : List Line)
    (hbr : ¬(closeLang c ≠ [] ∧ (closeLang c).contains ' ' = false)) :
    closeFence (emitBody c) = closeFence c := by
  cases c with
  | nil => rfl
  | cons l0 rest =>
    have : emitBody (l0 :: rest) = l0 :: rest := by simp [emitBody]
    rw [this]

/-- Re-scanning the lines emitted at a fence close emits exactly the same
lines: the emitted fences of `render_markdown_with_code` are fixpoints. -/
lemma closeFence_stable (c : List Line)
    (hc : ∀ l ∈ c, fence.isPrefixOf l = false) (out : List Line) :
    List.foldl fmtStep ⟨false, [], out⟩ (closeFence c) = ⟨false, [], out ++ closeFence c⟩ := by
  by_cases hbr : closeLang c ≠ [] ∧ (closeLang c).contains ' ' = false
  · -- the first buffered line is promoted to a tag
    cases c with
    | nil => exact (hbr.1 rfl).elim
    | cons l0 rest =>
      have hl0 : l0 ≠ [] := by
        intro h
        exact hbr.1 (by simp [closeLang, h])
      have hlang : closeLang (l0 :: rest) = pyStrip l0 := by simp [closeLang, hl0]
      have hne : pyStrip l0 ≠ [] := by rw [← hlang]; exact hbr.1
      have hsp : (pyStrip l0).contains ' ' = false := by rw [← hlang]; exact hbr.2
      have hmid : ∀ b ∈ emitBody rest, fence.isPrefixOf b = false := by
        intro b hb
        rcases mem_emitBody hb with h | h
        · simp [h, fence_not_isPrefixOf_nil]
        · exact hc b (by simp [h])
      have hcf : closeFence (l0 :: rest) =
          (fence ++ pyStrip l0) :: (emitBody rest ++ [fence]) := by
        rw [closeFence, if_pos hbr, hlang]
        rfl
      rw [hcf, run_emitted _ _ _ hmid]
      have hopen : openTag (pyStrip l0) = [pyStrip l0] := by
        rw [openTag, pyStrip_idem]
        simp [hne]
      have hfinal : closeFence (openTag (pyStrip l0) ++ emitBody rest) =
          (fence ++ pyStrip l0) :: (emitBody rest ++ [fence]) := by
        rw [hopen]
        simp only [List.cons_append, List.nil_append]
        have hcl : closeLang (pyStrip l0 :: emitBody rest) = pyStrip l0 := by
          simp [closeLang, hne, pyStrip_idem]
        rw [closeFence, hcl, if_pos ⟨hne, hsp⟩]
        simp [emitBody_idem]
      rw [hfinal]
  · -- no tag: all buffered lines are re-emitted as the body
    have hcf : closeFence c = fence :: (emitBody c ++ [fence]) := by
      rw [closeFence, if_neg hbr]
      rfl
    have hmid : ∀ b ∈ emitBody c, fence.isPrefixOf b = false := by
      intro b hb
      rcases mem_emitBody hb with h | h
      · simp [h, fence_not_isPrefixOf_nil]
      · exact hc b h
    have hrun := run_emitted [] (emitBody c) out hmid
    have hoT : openTag ([] : Line) = [] := by simp [openTag, pyStrip]
    rw [hoT] at hrun
    simp only [List.append_nil, List.nil_append] at hrun
    rw [hcf, hrun, closeFence_emitBody_of_stays c hbr, ← hcf]

/-- Re-scanning the emission of one well-formed block emits it unchanged. -/
lemma emit_stable (blk : Blk) (hok : blkOK blk = true) (out : List Line) :
    List.foldl fmtStep ⟨false, [], out⟩ (emitB blk) = ⟨false, [], out ++ emitB blk⟩ := by
  cases blk with
  | plain p => exact run_block (Blk.plain p) hok out
  | fenced lang body =>
    have hok2 : fence.isPrefixOf (pyStrip lang) = false ∧
        ∀ b ∈ body, fence.isPrefixOf b = false := by
      simpa [blkOK, List.all_eq_true] using hok
    have hc : ∀ l ∈ openTag lang ++ body, fence.isPrefixOf l = false := by
      intro l hl
      rcases List.mem_append.mp hl with h | h
      · have : l = pyStrip lang := by
          unfold openTag at h
          by_cases hz : pyStrip lang = [] <;> simp [hz] at h <;> simp [h]
        rw [this]
        exact hok2.1
      · exact hok2.2 l h
    exact closeFence_stable _ hc out

/-- Re-scanning the whole emission of a well-formed block sequence is the
identity on the scan. -/
lemma run_emits (bs : List Blk) : ∀ (out : List Line),
    (∀ b ∈ bs, blkOK b = true) →
    List.foldl fmtStep ⟨false, [], out⟩ ((bs.map emitB).flatten) =
      ⟨false, [], out ++ (bs.map emitB).flatten⟩ := by
  induction bs with
  | nil => intro out _; simp
  | cons b bs ih =>
    intro out h
    simp only [List.map_cons, List.flatten_cons]
    rw [List.foldl_append, emit_stable b (h b (by simp)) out,
      ih (out ++ emitB b) (fun x hx => h x (by simp [hx]))]
    simp

/-! ### `split('\n')` / `'\n'.join` round trip -/

lemma splitLines_ne_nil (cs : List Char) : splitLines cs ≠ [] := by
  induction cs with
  | nil => simp [splitLines]
  | cons c cs ih =>
    simp only [splitLines]
    by_cases hcn : c = '\n'
    · simp [hcn]
    · simp only [hcn, if_false]
      cases hs : splitLines cs <;> simp

lemma splitLines_no_newline (cs : List Char) : ∀ l ∈ splitLines cs, '\n' ∉ l := by
  induction cs with
  | nil =>
    intro l hl
    simp [splitLines] at hl
    simp [hl]
  | cons c cs ih =>
    intro l hl
    simp only [splitLines] at hl
    by_cases hcn : c = '\n'
    · simp [hcn] at hl
      rcases hl with h | h
      · simp [h]
      · exact ih l h
    · simp only [hcn, if_false] at hl
      cases hs : splitLines cs with
      | nil => exact (splitLines_ne_nil cs hs).elim
      | cons l1 ls1 =>
        rw [hs] at hl
        rcases List.mem_cons.mp hl with h | h
        · subst h
          intro hmem
          rcases List.mem_cons.mp hmem with h1 | h1
          · exact hcn h1.symm
          · exact ih l1 (by simp [hs]) h1
        · exact ih l (by simp [hs, h])

lemma splitLines_of_no_newline (cs : List Char) (h : '\n' ∉ cs) :
    splitLines cs = [cs] := by
  induction cs with
  | nil => rfl
  | cons c cs ih =>
    have hc : ¬ c = '\n' := fun hc => h (by simp [hc])
    simp only [splitLines, hc, if_false]
    rw [ih (fun hm => h (by simp [hm]))]

lemma splitLines_append_newline (l : Line) (rest : List Char) (h : '\n' ∉ l) :
    splitLines (l ++ '\n' :: rest) = l :: splitLines rest := by
  induction l with
  | nil => simp [splitLines]
  | cons c l ih =>
    have hc : ¬ c = '\n' := fun hc => h (by simp [hc])
    simp only [List.cons_append, splitLines, hc, if_false, List.append_eq]
    rw [ih (fun hm => h (by simp [hm]))]

lemma splitLines_joinLines (ls : List Line) (h : ∀ l ∈ ls, '\n' ∉ l) (hne : ls ≠ []) :
    splitLines (joinLines ls) = ls := by
  induction ls with
  | nil => exact (hne rfl).elim
  | cons l ls ih =>
    cases ls with
    | nil =>
      simp only [joinLines]
      exact splitLines_of_no_newline l (h l (by simp))
    | cons l2 ls2 =>
      have hj : joinLines (l :: l2 :: ls2) = l ++ '\n' :: joinLines (l2 :: ls2) := rfl
      rw [hj, splitLines_append_newline l _ (h l (by simp)),
        ih (fun x hx => h x (by simp [hx])) (by simp)]

/-! ### The emitted lines contain no newline -/

lemma no_newline_mem_pyStrip {l : Line} (h : '\n' ∉ l) : '\n' ∉ pyStrip l :=
  fun hm => h (mem_pyStrip hm)

lemma no_newline_fence : '\n' ∉ fence := by decide

lemma no_newline_closeLang {c : List Line} (h : ∀ l ∈ c, '\n' ∉ l) :
    '\n' ∉ closeLang c := by
  unfold closeLang
  cases c with
  | nil => simp
  | cons l0 rest =>
    by_cases hz : l0 = []
    · simp [hz]
    · simp only [hz, if_false]
      exact no_newline_mem_pyStrip (h l0 (by simp))

lemma no_newline_emitBody {c : List Line} (h : ∀ l ∈ c, '\n' ∉ l) :
    ∀ l ∈ emitBody c, '\n' ∉ l := by
  intro l hl
  rcases mem_emitBody hl with h1 | h1
  · simp [h1]
  · exact h l h1

lemma no_newline_closeFence {c : List Line} (h : ∀ l ∈ c, '\n' ∉ l) :
    ∀ l ∈ closeFence c, '\n' ∉ l := by
  intro l hl
  unfold closeFence at hl
  by_cases hbr : closeLang c ≠ [] ∧ (closeLang c).contains ' ' = false
  · rw [if_pos hbr] at hl
    rcases List.mem_cons.mp hl with h1 | h1
    · subst h1
      intro hm
      rcases List.mem_append.mp hm with h2 | h2
      · exact no_newline_fence h2
      · exact no_newline_closeLang h h2
    · rcases List.mem_append.mp h1 with h2 | h2
      · exact no_newline_emitBody (fun x hx => h x (List.mem_of_mem_tail hx)) l h2
      · simp at h2
        simp [h2]
        exact no_newline_fence
  · rw [if_neg hbr] at hl
    rcases List.mem_cons.mp hl with h1 | h1
    · simp [h1]
      exact no_newline_fence
    · rcases List.mem_append.mp h1 with h2 | h2
      · exact no_newline_emitBody h l h2
      · simp at h2
        simp [h2]
        exact no_newline_fence

lemma no_newline_emitB {blk : Blk} (h : ∀ l ∈ blkLines blk, '\n' ∉ l) :
    ∀ l ∈ emitB blk, '\n' ∉ l := by
  cases blk with
  | plain p =>
    intro l hl
    simp [emitB] at hl
    subst hl
    exact h _ (by simp [blkLines])
  | fenced lang body =>
    have hlang : '\n' ∉ lang := fun hm => h (fence ++ lang) (by simp [blkLines]) (by simp [hm])
    have hbody : ∀ l ∈ body, '\n' ∉ l := fun l hl => h l (by simp [blkLines, hl])
    intro l hl
    have hcl : ∀ x ∈ openTag lang ++ body, '\n' ∉ x := by
      intro x hx
      rcases List.mem_append.mp hx with h1 | h1
      · unfold openTag at h1
        by_cases hz : pyStrip lang = []
        · simp [hz] at h1
        · simp [hz] at h1
          subst h1
          exact no_newline_mem_pyStrip hlang
      · exact hbody x h1
    exact no_newline_closeFence hcl l hl

/-! ### C4: idempotence on well-formed fenced text -/

/-- The emission of a block is never empty. -/
lemma emitB_ne_nil (blk : Blk) : emitB blk ≠ [] := by
  cases blk with
  | plain p => simp [emitB]
  | fenced lang body =>
    simp only [emitB, closeFence]
    split <;> simp

/-- C4: `render_markdown_with_code` is idempotent on already-well-formed
fenced text.  Well-formedness of `t` is witnessed by a decomposition of its
lines into blocks `bs`: plain lines that do not begin with the fence marker,
and fences `` ```lang `` / body / `` ``` `` whose stripped language tag does
not itself begin with the fence marker and whose body lines do not begin with
the fence marker. -/
theorem format_idempotent (t : String) (bs : List Blk)
    (hok : ∀ b ∈ bs, blkOK b = true)
    (hls : splitLines t.data = blocksLines bs) :
    render_markdown_with_code (render_markdown_with_code t) =
      render_markdown_with_code t := by
  have hfmt : formatLines (splitLines t.data) = (bs.map emitB).flatten := by
    unfold formatLines
    rw [hls, show initState = ⟨false, [], []⟩ from rfl, run_blocks bs [] hok]
    simp
  simp only [render_markdown_with_code, hfmt]
  by_cases hE : (bs.map emitB).flatten = ([] : List Line)
  · rw [hE]
    rfl
  · have hnlB : ∀ l ∈ blocksLines bs, '\n' ∉ l := by
      rw [← hls]
      exact splitLines_no_newline t.data
    have hnl : ∀ l ∈ (bs.map emitB).flatten, '\n' ∉ l := by
      intro l hl
      rw [List.mem_flatten] at hl
      obtain ⟨e, he, hle⟩ := hl
      rw [List.mem_map] at he
      obtain ⟨blk, hblk, rfl⟩ := he
      have hblkl : ∀ x ∈ blkLines blk, '\n' ∉ x := by
        intro x hx
        apply hnlB
        unfold blocksLines
        rw [List.mem_flatten]
        exact ⟨blkLines blk, List.mem_map.mpr ⟨blk, hblk, rfl⟩, hx⟩
      exact no_newline_emitB hblkl l hle
    have hsplit : splitLines (String.mk (joinLines ((bs.map emitB).flatten))).data
        = (bs.map emitB).flatten :=
      splitLines_joinLines _ hnl hE
    rw [hsplit]
    unfold formatLines
    rw [show initState = ⟨false, [], []⟩ from rfl,
      run_emits bs [] hok]
    simp

/-! ### C3: what the formatter actually does to an untagged fence -/

/-- C3 counterexample: `format("```\nhello\n```")` is NOT a well-formed
untagged fence with body `hello` (which would be the input itself): the body
line is promoted to a language tag and the result is `"```hello\n\n```"`. -/
theorem untagged_fence_claim_false :
    render_markdown_with_code "```\nhello\n```" ≠ "```\nhello\n```" ∧
    render_markdown_with_code "```\nhello\n```" = "```hello\n\n```" := by
  constructor
  · decide
  · decide

/-- C3 amended: when the opening marker carries no tag, a nonempty first
body line whose stripped form is nonempty and contains no space IS promoted
to the language tag at close time, leaving the remaining (here: empty) body. -/
theorem untagged_open_promotes_first_line (b : Line)
    (hb : fence.isPrefixOf b = false) (hne : b ≠ [])
    (hs : pyStrip b ≠ []) (hsp : (pyStrip b).contains ' ' = false) :
    formatLines [fence, b, fence] = [fence ++ pyStrip b, [], fence] := by
  have h1 : fmtStep initState fence = ⟨true, [], []⟩ := by decide
  have h2 : fmtStep ⟨true, [], []⟩ b = ⟨true, [b], []⟩ := by
    simp only [fmtStep, hb]
    simp
  have h3 : fmtStep ⟨true, [b], []⟩ fence = ⟨false, [], [] ++ closeFence [b]⟩ := by
    simp only [fmtStep, fence_isPrefixOf_self]
    simp
  have hcl : closeLang [b] = pyStrip b := by simp [closeLang, hne]
  have hcf : closeFence [b] = [fence ++ pyStrip b, [], fence] := by
    rw [closeFence, hcl, if_pos ⟨hs, hsp⟩]
    rfl
  unfold formatLines
  simp only [List.foldl_cons, List.foldl_nil]
  rw [h1, h2, h3, hcf]
  rfl

theorem untagged_open_promotes_first_line_witness :
    fence.isPrefixOf "hello".data = false ∧ "hello".data ≠ ([] : Line) ∧
    pyStrip "hello".data ≠ [] ∧ (pyStrip "hello".data).contains ' ' = false ∧
    formatLines [fence, "hello".data, fence] = [fence ++ pyStrip "hello".data, [], fence] :=
  ⟨by decide, by decide, by decide, by decide,
    untagged_open_promotes_first_line "hello".data (by decide) (by decide) (by decide)
      (by decide)⟩

/-- C4 witness at a concrete well-formed text. -/
def sampleBlocks : List Blk :=
  [Blk.plain "intro".data, Blk.fenced "py".data ["x = 1".data], Blk.plain "done".data]

theorem format_idempotent_witness :
    (∀ b ∈ sampleBlocks, blkOK b = true) ∧
    splitLines ("intro\n```py\nx = 1\n```\ndone" : String).data = blocksLines sampleBlocks ∧
    render_markdown_with_code (render_markdown_with_code "intro\n```py\nx = 1\n```\ndone") =
      render_markdown_with_code "intro\n```py\nx = 1\n```\ndone" :=
  ⟨by decide, by decide,
    format_idempotent _ sampleBlocks (by decide) (by decide)⟩

theorem dangling_fence_dropped_witness :
    (List.foldl fmtStep initState []).inBlock = false ∧
    fence.isPrefixOf "```py".data = true ∧
    (∀ b ∈ ["abc".data], fence.isPrefixOf b = false) ∧
    formatLines ([] ++ "```py".data :: ["abc".data]) = formatLines [] ∧
    render_markdown_with_code "```py\nabc" = "" :=
  ⟨by decide, by decide, by decide,
    dangling_fence_dropped [] "```py".data ["abc".data] (by decide) (by decide) (by decide),
    by decide⟩

/-! ## Session state and the turn state machine (`app.py` lines 112-127, 286-423) -/

/-- Message roles. -/
inductive Role where
  | system
  | user
  | assistant
deriving DecidableEq

/-- A chat message dict: `role`, `content`, and the optional `formatted` key
modelled as a `Bool` defaulting to `false` (`msg.get("formatted", False)`). -/
structure Message where
  role : Role
  content : String
  formatted : Bool := false
deriving DecidableEq

/-- The user-message dict of line 295. -/
def userMsg (content : String) : Message :=
  { role := Role.user, content := content }

/-- The system-prompt message dict of line 298. -/
def systemMsg (content : String) : Message :=
  { role := Role.system, content := content }

/-- The finalized assistant-message dict of lines 391-395 (`formatted: True`). -/
def assistantMsg (content : String) : Message :=
  { role := Role.assistant, content := content, formatted := true }

/-- The request descriptor stored in `st.session_state.to_stream`
(lines 302-305). -/
structure PendingRequest where
  model : String
  messages : List Message
deriving DecidableEq

/-- A persisted conversation record (lines 402-407). -/
structure ConversationRecord where
  name : String
  messages : List Message
  timestamp : String
  model : String
deriving DecidableEq

/-- The per-session mutable state (`st.session_state`, lines 112-127). -/
structure SessionState where
  chat_history : List ConversationRecord
  messages : List Message
  current_idx : Option Nat
  to_stream : Option PendingRequest
  stop_requested : Bool
  system_prompt : String
  file_text : Option String
deriving DecidableEq

/-- Python truthiness of the optional file context
(`if st.session_state.file_text:`): an empty string is falsy. -/
def fileCtxTruthy : Option String → Bool
  | some t => decide (t ≠ "")
  | none => false

/-- Line 291: the file context is prepended to the user input,
applied only when the file context is truthy. -/
def applyFileCtx (ft : Option String) (raw : String) : String :=
  if fileCtxTruthy ft then
    "File context:\n" ++ ft.getD "" ++ "\n\n---\n\n" ++ raw
  else raw

/-- The submit branch of the input handler (lines 286-307): prepend and clear
any (truthy) pending file context, append the user message, build the request
descriptor whose message list is the system-prompt message followed by the
working messages, store it, and reset the cancel flag. -/
def submit (s : SessionState) (selected_model raw : String) : SessionState :=
  let user_input := applyFileCtx s.file_text raw
  let messages1 := s.messages ++ [userMsg user_input]
  let req : PendingRequest :=
    { model := selected_model, messages := systemMsg s.system_prompt :: messages1 }
  { s with
    messages := messages1,
    file_text := if fileCtxTruthy s.file_text then none else s.file_text,
    to_stream := some req,
    stop_requested := false }

/-- The streaming loop (lines 351-367): before each chunk's processing the
`stop_requested` flag is read (modelled by the oracle `flag i` for the check
before chunk `i`); if set, the loop breaks and no further delta is
accumulated, otherwise the chunk's delta is appended to the accumulator. -/
def accumulate (flag : Nat → Bool) (i : Nat) (acc : String) : List String → String
  | [] => acc
  | c :: cs => if flag i then acc else accumulate flag (i + 1) (acc ++ c) cs

/-- Outcome of the `try`/`except` around the loop (lines 350-371): if the
underlying `chat(...)` call raises with message `e`, the accumulator is
replaced wholesale by the literal error string; otherwise it holds the
accumulated deltas. -/
def runStream (flag : Nat → Bool) (delivered : List String) (failure : Option String) : String :=
  match failure with
  | some e => "**Error:** " ++ e
  | none => accumulate flag 0 "" delivered

/-- Line 400: the first user message's content, defaulting to `"Chat"`. -/
def firstUserContent (msgs : List Message) : String :=
  match msgs.find? (fun m => decide (m.role = Role.user)) with
  | some m => m.content
  | none => "Chat"

/-- Line 401: truncate to 30 characters and append an ellipsis when longer. -/
def truncateTitle (first_user : String) : String :=
  if first_user.length > 30 then first_user.take 30 ++ "..." else first_user

/-- The finalize block (lines 386-422): render the accumulated response,
append it as a `formatted` assistant message, then either append a new record
named after the first user message (when `current_idx` is `None`) or update
the record at `current_idx` in place; clear `to_stream` and `stop_requested`.
(The `none` case of the index lookup is unreachable in the app, where
`current_idx` always indexes into `chat_history`; Python would raise
`IndexError` there.) -/
def finalize (s : SessionState) (selected_model full_response now : String) : SessionState :=
  let formatted_response := render_markdown_with_code full_response
  let messages2 := s.messages ++ [assistantMsg formatted_response]
  match s.current_idx with
  | none =>
    let title := truncateTitle (firstUserContent messages2)
    let hist2 := s.chat_history ++
      [{ name := title, messages := messages2, timestamp := now, model := selected_model }]
    { s with
      messages := messages2,
      chat_history := hist2,
      current_idx := some (hist2.length - 1),
      to_stream := none,
      stop_requested := false }
  | some idx =>
    let hist2 :=
      match s.chat_history[idx]? with
      | some old =>
        s.chat_history.set idx
          { old with messages := messages2, timestamp := now, model := selected_model }
      | none => s.chat_history
    { s with
      messages := messages2,
      chat_history := hist2,
      to_stream := none,
      stop_requested := false }

/-! ## The per-user JSON history store (lines 17-35) -/

/-- Structured JSON values, the data model of `json.dump` / `json.load`. -/
inductive Json where
  | str (s : String)
  | num (n : Int)
  | jbool (b : Bool)
  | null
  | arr (xs : List Json)
  | obj (fields : List (String × Json))

def roleStr : Role → String
  | .system => "system"
  | .user => "user"
  | .assistant => "assistant"

/-- The dict persisted for a message: `formatted` is present only on
finalized assistant messages (lines 391-395); user and system dicts carry
only `role` and `content` (lines 295, 298). -/
def encodeMessage (m : Message) : Json :=
  Json.obj ([("role", Json.str (roleStr m.role)), ("content", Json.str m.content)] ++
    (if m.formatted then [("formatted", Json.jbool true)] else []))

/-- The dict persisted for a record (lines 402-407). -/
def encodeRecord (r : ConversationRecord) : Json :=
  Json.obj [("name", Json.str r.name),
    ("messages", Json.arr (r.messages.map encodeMessage)),
    ("timestamp", Json.str r.timestamp),
    ("model", Json.str r.model)]

/-- The JSON array `json.dump` writes for the whole history list (line 35). -/
def encodeHistory (h : List ConversationRecord) : Json :=
  Json.arr (h.map encodeRecord)

def jLookup (fields : List (String × Json)) (k : String) : Option Json :=
  (fields.find? (fun f => decide (f.1 = k))).map (fun f => f.2)

def asStr : Json → Option String
  | .str s => some s
  | _ => none

def roleOfStr (s : String) : Option Role :=
  if s = "system" then some Role.system
  else if s = "user" then some Role.user
  else if s = "assistant" then some Role.assistant
  else none

/-- Reader for a persisted message dict, inverse to `encodeMessage`, reading
the fields the app consumes (`msg` indexing and `msg.get("formatted", False)`). -/
def decodeMessage : Json → Option Message
  | .obj fields => do
    let rj ← jLookup fields "role"
    let rs ← asStr rj
    let role ← roleOfStr rs
    let cj ← jLookup fields "content"
    let content ← asStr cj
    let formatted :=
      match jLookup fields "formatted" with
      | some (Json.jbool b) => b
      | _ => false
    pure { role := role, content := content, formatted := formatted }
  | _ => none

def decodeMessages : List Json → Option (List Message)
  | [] => some []
  | j :: js => do
    let m ← decodeMessage j
    let ms ← decodeMessages js
    pure (m :: ms)

/-- Reader for a persisted record dict, inverse to `encodeRecord`, reading
the fields the app consumes. -/
def decodeRecord : Json → Option ConversationRecord
  | .obj fields => do
    let nj ← jLookup fields "name"
    let name ← asStr nj
    let mj ← jLookup fields "messages"
    let msgs ←
      match mj with
      | Json.arr js => decodeMessages js
      | _ => none
    let tj ← jLookup fields "timestamp"
    let ts ← asStr tj
    let dj ← jLookup fields "model"
    let mdl ← asStr dj
    pure { name := name, messages := msgs, timestamp := ts, model := mdl }
  | _ => none

def decodeRecords : List Json → Option (List ConversationRecord)
  | [] => some []
  | j :: js => do
    let r ← decodeRecord j
    let rs ← decodeRecords js
    pure (r :: rs)

/-- Reader for the persisted history array. -/
def decodeHistory : Json → Option (List ConversationRecord)
  | .arr js => decodeRecords js
  | _ => none

/-- Python exception classes relevant to `load_history`'s `try`/`except`. -/
inductive PyExc where
  | jsonDecodeError
  | fileNotFoundError
  | unicodeDecodeError
  | permissionError
deriving DecidableEq

/-- Condition of a user's history file on disk.  `parsed j` is a readable
file whose bytes decode as UTF-8 and parse as the JSON value `j`;
`notJsonText` is readable UTF-8 text that is not valid JSON;
`undecodableBytes` is a readable file whose bytes are not valid UTF-8;
`permissionDenied` is an existing file the process may not open. -/
inductive FileState where
  | absent
  | permissionDenied
  | undecodableBytes
  | notJsonText
  | parsed (j : Json)

/-- `os.path.exists(history_file)` (line 25). -/
def fileExists : FileState → Bool
  | .absent => false
  | _ => true

/-- Modelled from the Python stdlib semantics of the calls on lines 27-28
(`open` with UTF-8 encoding, then `json.load(f)`): the exception class each
file condition raises, or the parsed value.  `UnicodeDecodeError` and
`PermissionError` are not subclasses of `json.JSONDecodeError` or
`FileNotFoundError`. -/
def readAndParse : FileState → Except PyExc Json
  | .absent => .error .fileNotFoundError
  | .permissionDenied => .error .permissionError
  | .undecodableBytes => .error .unicodeDecodeError
  | .notJsonText => .error .jsonDecodeError
  | .parsed j => .ok j

/-- `load_history` (lines 23-31): if the file exists, read and parse it,
returning `[]` exactly for the two caught exception classes
(`json.JSONDecodeError`, `FileNotFoundError`); any other exception
propagates as `.error`.  If the file does not exist, return `[]`. -/
def load_history (fs : FileState) : Except PyExc Json :=
  if fileExists fs then
    match readAndParse fs with
    | .ok j => .ok j
    | .error e =>
      if e = PyExc.jsonDecodeError ∨ e = PyExc.fileNotFoundError then .ok (Json.arr [])
      else .error e
  else .ok (Json.arr [])

/-- `save_history` (lines 33-35): `json.dump(h, f)` overwrites the user's
file; the stdlib guarantees the written text reads back as the dumped
structure, so the file is modelled as holding `encodeHistory h`. -/
def save_history (store : String → FileState) (uid : String) (h : List ConversationRecord) :
    String → FileState :=
  fun u => if u = uid then FileState.parsed (encodeHistory h) else store u

/-- Finalize a turn and persist the updated history (lines 386-418). -/
def completeTurn (s : SessionState) (store : String → FileState)
    (uid model resp now : String) : SessionState × (String → FileState) :=
  let s2 := finalize s model resp now
  (s2, save_history store uid s2.chat_history)

/-- The sidebar Delete handler (lines 248-254): `pop(orig_i)`, persist the
shortened list, and reset the working messages and current index exactly
when the deleted index was the active conversation. -/
def deleteChat (s : SessionState) (store : String → FileState) (uid : String) (i : Nat) :
    SessionState × (String → FileState) :=
  let hist2 := s.chat_history.eraseIdx i
  let store2 := save_history store uid hist2
  if s.current_idx = some i then
    ({ s with chat_history := hist2, messages := [], current_idx := none }, store2)
  else
    ({ s with chat_history := hist2 }, store2)

/-! ### String concatenation helpers -/

lemma join_acc : ∀ (cs : List String) (acc : String),
    List.foldl (· ++ ·) acc cs = acc ++ String.join cs := by
  intro cs
  induction cs with
  | nil =>
    intro acc
    simp [String.join, String.append_empty]
  | cons c cs ih =>
    intro acc
    have hj : String.join (c :: cs) = c ++ String.join cs := by
      show List.foldl (· ++ ·) ("" ++ c) cs = c ++ String.join cs
      rw [show ("" ++ c : String) = c from rfl, ih c]
    simp only [List.foldl_cons]
    rw [ih (acc ++ c), hj, String.append_assoc]

lemma join_cons (c : String) (cs : List String) :
    String.join (c :: cs) = c ++ String.join cs := by
  show List.foldl (· ++ ·) ("" ++ c) cs = c ++ String.join cs
  rw [show ("" ++ c : String) = c from rfl, join_acc cs c]

/-! ### Accumulation lemmas for the streaming loop -/

/-- With the cancel flag never set, the loop accumulates every delta. -/
lemma accumulate_false (chunks : List String) : ∀ (i : Nat) (acc : String),
    accumulate (fun _ => false) i acc chunks = acc ++ String.join chunks := by
  induction chunks with
  | nil =>
    intro i acc
    simp [accumulate, String.join, String.append_empty]
  | cons c cs ih =>
    intro i acc
    simp only [accumulate, if_neg (by simp : ¬(false = true))]
    rw [ih (i + 1) (acc ++ c), join_cons, String.append_assoc]

/-- The flag oracle for a cancellation observed set from the check before
chunk `k` onward (the flag is only ever set, never cleared, during a turn). -/
def thresholdFlag (k : Nat) : Nat → Bool := fun i => decide (k ≤ i)

/-- With the flag set from check `m` on, the loop accumulates exactly the
deltas of the chunks before index `m` and consumes nothing afterwards. -/
lemma accumulate_threshold (chunks : List String) : ∀ (m i : Nat) (acc : String),
    accumulate (thresholdFlag m) i acc chunks = acc ++ String.join (chunks.take (m - i)) := by
  induction chunks with
  | nil =>
    intro m i acc
    simp [accumulate, String.join, String.append_empty]
  | cons c cs ih =>
    intro m i acc
    by_cases him : m ≤ i
    · have hflag : thresholdFlag m i = true := by simp [thresholdFlag, him]
      have hz : m - i = 0 := Nat.sub_eq_zero_of_le him
      simp [accumulate, hflag, hz, String.join, String.append_empty]
    · have hflag : thresholdFlag m i = false := by simp [thresholdFlag, him]
      have hpos : 0 < m - i := Nat.sub_pos_of_lt (Nat.lt_of_not_le him)
      have htake : (c :: cs).take (m - i) = c :: cs.take (m - i - 1) := by
        cases hmi : m - i with
        | zero => omega
        | succ n => simp
      simp only [accumulate, hflag, if_neg (by simp : ¬(false = true))]
      rw [ih m (i + 1) (acc ++ c), htake, join_cons, String.append_assoc]
      have : m - (i + 1) = m - i - 1 := by omega
      rw [this]

/-! ### Finalize: facts independent of whether a conversation is active -/

/-- In both the new-chat and the existing-chat branch, the finalized
assistant message is the formatted response with `formatted = true`. -/
lemma finalize_messages (s : SessionState) (model resp now : String) :
    (finalize s model resp now).messages =
      s.messages ++ [assistantMsg (render_markdown_with_code resp)] := by
  unfold finalize
  cases s.current_idx <;> simp

/-- A single line that does not open a fence renders unchanged. -/
lemma render_single_plain (t : String) (h1 : ('\n') ∉ t.data)
    (h2 : fence.isPrefixOf t.data = false) :
    render_markdown_with_code t = t := by
  unfold render_markdown_with_code
  rw [splitLines_of_no_newline t.data h1]
  have hf : formatLines [t.data] = [t.data] := by
    unfold formatLines
    simp only [List.foldl_cons, List.foldl_nil]
    simp only [initState, fmtStep, h2]
    simp
  rw [hf]
  rfl

/-! ### The persisted layout decodes back to what was encoded -/

lemma decodeMessage_encodeMessage (m : Message) :
    decodeMessage (encodeMessage m) = some m := by
  obtain ⟨role, content, formatted⟩ := m
  cases role <;> cases formatted <;> rfl

lemma decodeMessages_map (ms : List Message) :
    decodeMessages (ms.map encodeMessage) = some ms := by
  induction ms with
  | nil => rfl
  | cons m ms ih =>
    simp [decodeMessages, decodeMessage_encodeMessage, ih]

lemma decodeRecord_encodeRecord (r : ConversationRecord) :
    decodeRecord (encodeRecord r) = some r := by
  obtain ⟨name, msgs, ts, mdl⟩ := r
  simp [decodeRecord, encodeRecord, jLookup, asStr, decodeMessages_map]

lemma decodeRecords_map (rs : List ConversationRecord) :
    decodeRecords (rs.map encodeRecord) = some rs := by
  induction rs with
  | nil => rfl
  | cons r rs ih =>
    simp [decodeRecords, decodeRecord_encodeRecord, ih]

lemma decodeHistory_encodeHistory (h : List ConversationRecord) :
    decodeHistory (encodeHistory h) = some h := by
  simp [decodeHistory, encodeHistory, decodeRecords_map]

/-! ### C7 and C8: the history store -/

/-- C7: saving a record list for a user and loading for that user returns an
equal list (the loaded JSON is exactly the encoded history, and decoding it
recovers the records); loading when no file exists returns the empty list. -/
theorem history_round_trip (store : String → FileState) (uid : String)
    (R : List ConversationRecord) (hR : R ≠ []) :
    load_history (save_history store uid R uid) = Except.ok (encodeHistory R) ∧
    decodeHistory (encodeHistory R) = some R ∧
    (store uid = FileState.absent → load_history (store uid) = Except.ok (Json.arr [])) := by
  refine ⟨?_, decodeHistory_encodeHistory R, ?_⟩
  · simp [save_history, load_history, fileExists, readAndParse]
  · intro h
    rw [h]
    rfl

/-- Sample record for concrete witnesses. -/
def sampleRecord : ConversationRecord :=
  { name := "hi", messages := [userMsg "hi"], timestamp := "t", model := "m" }

theorem history_round_trip_witness :
    ([sampleRecord] ≠ ([] : List ConversationRecord)) ∧
    load_history (save_history (fun _ => FileState.absent) "u" [sampleRecord] "u") =
      Except.ok (encodeHistory [sampleRecord]) ∧
    decodeHistory (encodeHistory [sampleRecord]) = some [sampleRecord] :=
  ⟨by simp,
    (history_round_trip (fun _ => FileState.absent) "u" [sampleRecord] (by simp)).1,
    (history_round_trip (fun _ => FileState.absent) "u" [sampleRecord] (by simp)).2.1⟩

/-- C8 counterexample: `load_history` propagates rather than swallows the
errors raised by a file of undecodable bytes (`UnicodeDecodeError`) or an
unreadable file (`PermissionError`); neither returns the empty list. -/
theorem load_history_raises :
    load_history FileState.undecodableBytes = Except.error PyExc.unicodeDecodeError ∧
    load_history FileState.permissionDenied = Except.error PyExc.permissionError ∧
    load_history FileState.undecodableBytes ≠ Except.ok (Json.arr []) :=
  ⟨rfl, rfl, by simp [load_history, fileExists, readAndParse]⟩

/-- C8 amended: `load_history` returns a value (never raises) exactly when
the file is not permission-denied and not undecodable bytes; it returns the
empty list for an absent file and for readable text that is not valid JSON. -/
theorem load_history_total_iff :
    (∀ fs : FileState, (∃ j, load_history fs = Except.ok j) ↔
      (fs ≠ FileState.permissionDenied ∧ fs ≠ FileState.undecodableBytes)) ∧
    load_history FileState.absent = Except.ok (Json.arr []) ∧
    load_history FileState.notJsonText = Except.ok (Json.arr []) := by
  refine ⟨?_, rfl, rfl⟩
  intro fs
  cases fs <;> simp [load_history, fileExists, readAndParse]

/-! ### C9: finalizing inside an active conversation updates in place -/

/-- C9: when `current_idx` points at a record, finalizing a turn replaces
that record in place — the history length is unchanged, the record gets the
updated messages, timestamp and model while keeping its name, and every
other record is untouched. -/
theorem finalize_updates_in_place (s : SessionState) (model resp now : String)
    (idx : Nat) (old : ConversationRecord)
    (hidx : s.current_idx = some idx) (hget : s.chat_history[idx]? = some old) :
    (finalize s model resp now).chat_history.length = s.chat_history.length ∧
    (finalize s model resp now).chat_history[idx]? =
      some { old with
              messages := s.messages ++ [assistantMsg (render_markdown_with_code resp)],
              timestamp := now,
              model := model } ∧
    ((finalize s model resp now).chat_history[idx]?).map ConversationRecord.name =
      some old.name ∧
    (∀ j, j ≠ idx → (finalize s model resp now).chat_history[j]? = s.chat_history[j]?) := by
  have hfin : (finalize s model resp now).chat_history =
      s.chat_history.set idx
        { old with
            messages := s.messages ++ [assistantMsg (render_markdown_with_code resp)],
            timestamp := now,
            model := model } := by
    unfold finalize
    rw [hidx]
    simp [hget]
  rw [hfin]
  refine ⟨List.length_set _ _ _, ?_, ?_, ?_⟩
  · rw [List.getElem?_set_self', hget]
    rfl
  · rw [List.getElem?_set_self', hget]
    rfl
  · intro j hj
    exact List.getElem?_set_ne (fun h => hj h.symm)

/-- Sample state with one loaded conversation, for concrete witnesses. -/
def sampleActive : SessionState :=
  { chat_history := [sampleRecord], messages := [userMsg "hi"], current_idx := some 0,
    to_stream := none, stop_requested := false, system_prompt := "p", file_text := none }

theorem finalize_updates_in_place_witness :
    (sampleActive.current_idx = some 0) ∧
    (sampleActive.chat_history[0]? = some sampleRecord) ∧
    (finalize sampleActive "m" "ok" "t2").chat_history.length =
      sampleActive.chat_history.length ∧
    ((finalize sampleActive "m" "ok" "t2").chat_history[0]?).map ConversationRecord.name =
      some "hi" :=
  ⟨rfl, rfl,
    (finalize_updates_in_place sampleActive "m" "ok" "t2" 0 sampleRecord rfl rfl).1,
    (finalize_updates_in_place sampleActive "m" "ok" "t2" 0 sampleRecord rfl rfl).2.2.1⟩

/-! ### C10: deleting a history record -/

/-- C10: deleting the record at a valid index `i` removes exactly that record
(records before `i` keep their position, records after shift down by one) and
persists the shortened list; the working messages and current index are reset
exactly when `i` was the current index, and otherwise the current index is
left numerically unchanged — so after deleting below it, the unchanged index
designates the successor of the record it used to designate. -/
theorem delete_removes_record (s : SessionState) (store : String → FileState)
    (uid : String) (i : Nat) (hi : i < s.chat_history.length) :
    (deleteChat s store uid i).1.chat_history = s.chat_history.eraseIdx i ∧
    (s.chat_history.eraseIdx i).length + 1 = s.chat_history.length ∧
    (∀ j, j < i → (s.chat_history.eraseIdx i)[j]? = s.chat_history[j]?) ∧
    (∀ j, i ≤ j → (s.chat_history.eraseIdx i)[j]? = s.chat_history[j + 1]?) ∧
    (deleteChat s store uid i).2 uid =
      FileState.parsed (encodeHistory (s.chat_history.eraseIdx i)) ∧
    (s.current_idx = some i →
      (deleteChat s store uid i).1.messages = [] ∧
      (deleteChat s store uid i).1.current_idx = none) ∧
    (s.current_idx ≠ some i →
      (deleteChat s store uid i).1.messages = s.messages ∧
      (deleteChat s store uid i).1.current_idx = s.current_idx) := by
  refine ⟨?_, ?_, ?_, ?_, ?_, ?_, ?_⟩
  · unfold deleteChat
    split <;> rfl
  · rw [List.length_eraseIdx, if_pos hi]
    omega
  · intro j hj
    rw [List.getElem?_eraseIdx, if_pos hj]
  · intro j hj
    rw [List.getElem?_eraseIdx, if_neg (by omega)]
  · unfold deleteChat
    split <;> simp [save_history]
  · intro h
    simp [deleteChat, h]
  · intro h
    simp [deleteChat, h]

/-- Sample state with two conversations, the second one active. -/
def sampleTwo : SessionState :=
  { chat_history := [sampleRecord,
      { name := "2nd", messages := [userMsg "b"], timestamp := "t2", model := "m" }],
    messages := [userMsg "b"], current_idx := some 1,
    to_stream := none, stop_requested := false, system_prompt := "p", file_text := none }

theorem delete_removes_record_witness :
    (0 < sampleTwo.chat_history.length) ∧
    (deleteChat sampleTwo (fun _ => FileState.absent) "u" 0).1.chat_history =
      sampleTwo.chat_history.eraseIdx 0 ∧
    (deleteChat sampleTwo (fun _ => FileState.absent) "u" 0).1.current_idx = some 1 ∧
    (deleteChat sampleTwo (fun _ => FileState.absent) "u" 0).1.messages =
      sampleTwo.messages :=
  ⟨by simp [sampleTwo],
    (delete_removes_record sampleTwo (fun _ => FileState.absent) "u" 0
      (by simp [sampleTwo])).1,
    ((delete_removes_record sampleTwo (fun _ => FileState.absent) "u" 0
      (by simp [sampleTwo])).2.2.2.2.2.2 (by simp [sampleTwo])).2,
    ((delete_removes_record sampleTwo (fun _ => FileState.absent) "u" 0
      (by simp [sampleTwo])).2.2.2.2.2.2 (by simp [sampleTwo])).1⟩

/-! ### C2: cooperative cancellation mid-stream -/

/-- C2: the flag is checked before each chunk is processed; with the flag
observed set from check `k` onward, exactly the first `k` deltas are
accumulated and no later chunk is consumed, and the finalized assistant
message is the formatter applied to those deltas.  In particular, for chunks
`"He", "llo", "!"` with the flag set after the first chunk is processed, the
accumulator is `"He"`. -/
theorem cancellation_stops_consumption (chunks : List String) (k : Nat)
    (s : SessionState) (model now : String) :
    accumulate (thresholdFlag k) 0 "" chunks = String.join (chunks.take k) ∧
    (finalize s model (runStream (thresholdFlag k) chunks none) now).messages =
      s.messages ++
        [assistantMsg (render_markdown_with_code (String.join (chunks.take k)))] ∧
    accumulate (thresholdFlag 1) 0 "" ["He", "llo", "!"] = "He" := by
  have hacc : accumulate (thresholdFlag k) 0 "" chunks = String.join (chunks.take k) := by
    have := accumulate_threshold chunks k 0 ""
    simpa using this
  refine ⟨hacc, ?_, by decide⟩
  show (finalize s model (accumulate (thresholdFlag k) 0 "" chunks) now).messages = _
  rw [hacc, finalize_messages]

/-! ### C6: a raising stream is finalized like a normal reply -/

/-- C6: when the underlying call raises with message `e`, the accumulator is
replaced wholesale by the literal error string; the turn then takes the exact
same finalize-and-persist path as a normally completed reply whose text is
that string: the error text is appended as a finalized (`formatted`)
assistant message and the updated history list is persisted. -/
theorem error_turn_finalized (s : SessionState) (store : String → FileState)
    (uid model e now : String) (flag : Nat → Bool) (delivered : List String)
    (he : ('\n') ∉ e.data) :
    runStream flag delivered (some e) = "**Error:** " ++ e ∧
    completeTurn s store uid model (runStream flag delivered (some e)) now =
      completeTurn s store uid model ("**Error:** " ++ e) now ∧
    (finalize s model ("**Error:** " ++ e) now).messages =
      s.messages ++ [assistantMsg ("**Error:** " ++ e)] ∧
    (completeTurn s store uid model ("**Error:** " ++ e) now).2 uid =
      FileState.parsed (encodeHistory
        (finalize s model ("**Error:** " ++ e) now).chat_history) := by
  have hplain : render_markdown_with_code ("**Error:** " ++ e) = "**Error:** " ++ e := by
    apply render_single_plain
    · intro hmem
      have hd : ("**Error:** " ++ e).data = "**Error:** ".data ++ e.data := rfl
      rw [hd] at hmem
      rcases List.mem_append.mp hmem with h | h
      · exact absurd h (by decide)
      · exact he h
    · have hd : ("**Error:** " ++ e).data = '*' :: ("*Error:** ".data ++ e.data) := rfl
      rw [hd, fence_chars]
      simp [List.isPrefixOf]
  refine ⟨rfl, rfl, ?_, ?_⟩
  · rw [finalize_messages, hplain]
  · simp [completeTurn, save_history]

theorem error_turn_finalized_witness :
    (('\n') ∉ ("boom" : String).data) ∧
    runStream (fun _ => false) ["He"] (some "boom") = "**Error:** boom" ∧
    (finalize sampleActive "m" ("**Error:** " ++ "boom") "t2").messages =
      sampleActive.messages ++ [assistantMsg ("**Error:** boom")] :=
  ⟨by decide,
    (error_turn_finalized sampleActive (fun _ => FileState.absent) "u" "m" "boom" "t2"
      (fun _ => false) ["He"] (by decide)).1,
    (error_turn_finalized sampleActive (fun _ => FileState.absent) "u" "m" "boom" "t2"
      (fun _ => false) ["He"] (by decide)).2.2.1⟩

/-! ### C1: a full turn — submit, stream to completion, finalize -/

/-- C1: submitting non-empty user text appends the user message (with any
truthy pending file context prepended and then cleared), stores a request
descriptor whose message list is the single system-prompt message followed by
the working messages, and resets the cancel flag; streaming with no
cancellation accumulates the concatenation of all deltas; the finalized
assistant message is the formatter applied to that concatenation with
`formatted = true`; and with no active conversation a new record named by the
first user message (via the 30-character truncation) is appended to the
history with the current index set to its position. -/
theorem submit_stream_finalize_turn (s : SessionState) (model raw now : String)
    (chunks : List String)
    (hidle : s.to_stream = none) (hraw : raw ≠ "")
    (hnew : s.current_idx = none) (hft : s.file_text ≠ some "") :
    (submit s model raw).messages =
      s.messages ++ [userMsg (applyFileCtx s.file_text raw)] ∧
    (submit s model raw).file_text = none ∧
    (submit s model raw).stop_requested = false ∧
    (submit s model raw).to_stream = some
      ⟨model, systemMsg s.system_prompt ::
        (s.messages ++ [userMsg (applyFileCtx s.file_text raw)])⟩ ∧
    runStream (fun _ => false) chunks none = String.join chunks ∧
    (finalize (submit s model raw) model (String.join chunks) now).messages =
      (submit s model raw).messages ++
        [assistantMsg (render_markdown_with_code (String.join chunks))] ∧
    (finalize (submit s model raw) model (String.join chunks) now).chat_history =
      s.chat_history ++
        [⟨truncateTitle (firstUserContent
            ((finalize (submit s model raw) model (String.join chunks) now).messages)),
          (finalize (submit s model raw) model (String.join chunks) now).messages,
          now, model⟩] ∧
    (finalize (submit s model raw) model (String.join chunks) now).current_idx =
      some s.chat_history.length := by
  have hcur : (submit s model raw).current_idx = none := by
    simp [submit, hnew]
  have hfmsg : (finalize (submit s model raw) model (String.join chunks) now).messages =
      (submit s model raw).messages ++
        [assistantMsg (render_markdown_with_code (String.join chunks))] :=
    finalize_messages _ _ _ _
  refine ⟨by simp [submit], ?_, by simp [submit], by simp [submit], ?_, hfmsg, ?_, ?_⟩
  · -- the pending file context is cleared
    cases hft2 : s.file_text with
    | none => simp [submit, fileCtxTruthy, hft2]
    | some t =>
      have ht : t ≠ "" := fun h => hft (by rw [hft2, h])
      simp [submit, fileCtxTruthy, hft2, ht]
  · -- no cancellation: every delta is accumulated
    rw [show runStream (fun _ => false) chunks none =
        accumulate (fun _ => false) 0 "" chunks from rfl,
      accumulate_false chunks 0 ""]
    rfl
  · -- the new record
    rw [hfmsg]
    unfold finalize
    rw [hcur]
    simp [submit]
  · -- the new current index
    unfold finalize
    rw [hcur]
    simp [submit]

/-- Fresh session with system prompt `"be terse"`, for the concrete turn. -/
def sampleFresh : SessionState :=
  { chat_history := [], messages := [], current_idx := none, to_stream := none,
    stop_requested := false, system_prompt := "be terse", file_text := none }

theorem submit_stream_finalize_turn_witness :
    (sampleFresh.to_stream = none) ∧ (("hi" : String) ≠ "") ∧
    (sampleFresh.current_idx = none) ∧ (sampleFresh.file_text ≠ some "") ∧
    (submit sampleFresh "m" "hi").to_stream =
      some ⟨"m", [systemMsg "be terse", userMsg "hi"]⟩ ∧
    (finalize (submit sampleFresh "m" "hi") "m"
        (runStream (fun _ => false) ["He", "llo"] none) "t").chat_history =
      [⟨"hi", [userMsg "hi", assistantMsg (render_markdown_with_code "Hello")], "t", "m"⟩] ∧
    (finalize (submit sampleFresh "m" "hi") "m"
        (runStream (fun _ => false) ["He", "llo"] none) "t").current_idx = some 0 :=
  ⟨rfl, by decide, rfl, by decide, by decide, by decide,
    by simpa using
      (submit_stream_finalize_turn sampleFresh "m" "hi" "t" ["He", "llo"]
        rfl (by decide) rfl (by decide)).2.2.2.2.2.2.2⟩

end OllamaApp
